import Mathlib

/-!
Shallow embedding of the constrained shortest-path kernel of the
Optimized Gas Pipeline Installation System (src/unnamed/part_000):
the edge data model, `calculateEdgeCost`, the terrain/max-cost filter,
and the `dijkstra` function (graph construction, selection loop,
relaxation, path reconstruction), together with the six-node example
graph hard-coded in the source.

JavaScript numeric values reachable in this code are modelled by `JsNum`
(`undefined`, `NaN`, `Infinity`, or a finite number, with finite values
taken in `ℤ`: all arithmetic this program performs is integral); JS
objects used
as maps are modelled as total functions with explicit defaults; the two
`while` loops are modelled with explicit fuel, and fuel sufficiency is
proved rather than assumed.  A JS `TypeError` (an edge endpoint that is
not a key of the adjacency object) and a hypothetical fuel exhaustion
are the two `Except` errors.
-/

/-- Edge record from the source: `{ start, end, distance, terrain,
materialCost, laborCost }`. -/
structure Edge where
  start : String
  «end» : String
  distance : ℤ
  terrain : ℤ
  materialCost : ℤ
  laborCost : ℤ
deriving DecidableEq, Repr

/-- Node record from the source: `{ id, x, y }`. -/
structure Node where
  id : String
  x : ℤ
  y : ℤ
deriving DecidableEq, Repr

/-- `calculateEdgeCost = edge.distance * (edge.materialCost + edge.laborCost)`. -/
def calculateEdgeCost (e : Edge) : ℤ :=
  e.distance * (e.materialCost + e.laborCost)

/-- The App's terrain filter: `edge => !terrainFilterEnabled || edge.terrain <= maxTerrain`. -/
def terrainFilter (terrainFilterEnabled : Bool) (maxTerrain : ℤ) (e : Edge) : Bool :=
  !terrainFilterEnabled || decide (e.terrain ≤ maxTerrain)

/-- The admission test in graph construction:
`terrainFilter(edge) && calculateEdgeCost(edge) <= maxCost`. -/
def admissible (tf : Edge → Bool) (maxCost : ℤ) (e : Edge) : Bool :=
  tf e && decide (calculateEdgeCost e ≤ maxCost)

/-- A JavaScript numeric value as it can occur in `costs`:
`undefined` (key never written), `NaN`, `Infinity`, or a finite number. -/
inductive JsNum where
  | undefined
  | nan
  | inf
  | num (q : ℤ)
deriving DecidableEq, Repr

/-- JavaScript `<` on the values of `JsNum`: comparisons involving
`undefined` or `NaN` are false, `q < Infinity` is true for finite `q`,
`Infinity < x` is false. -/
def jsLt : JsNum → JsNum → Bool
  | .num a, .num b => decide (a < b)
  | .num _, .inf => true
  | _, _ => false

/-- JavaScript `+` of a `JsNum` and a finite number:
`undefined + q = NaN`, `NaN + q = NaN`, `Infinity + q = Infinity`. -/
def jsAdd : JsNum → ℤ → JsNum
  | .undefined, _ => .nan
  | .nan, _ => .nan
  | .inf, _ => .inf
  | .num a, c => .num (a + c)

/-- Adjacency entry pushed in graph construction:
`{ node: ..., cost: calculateEdgeCost(edge), edge }`. -/
structure Adj where
  node : String
  cost : ℤ
  edge : Edge
deriving DecidableEq, Repr

/-- The adjacency object `graph`, as a total map from node id to its list. -/
def Graph : Type := String → List Adj

/-- The two pushes for one admitted edge:
`graph[edge.start].push({node: edge.end, ...}); graph[edge.end].push({node: edge.start, ...})`. -/
def addEdge (g : Graph) (e : Edge) : Graph :=
  let c := calculateEdgeCost e
  let g1 : Graph := fun k => if k = e.start then g k ++ [⟨e.«end», c, e⟩] else g k
  fun k => if k = e.«end» then g1 k ++ [⟨e.start, c, e⟩] else g1 k

/-- The `edges.forEach` graph-construction loop (lines 37–42). -/
def buildGraph (tf : Edge → Bool) (maxCost : ℤ) (edges : List Edge) : Graph :=
  edges.foldl (fun g e => if admissible tf maxCost e then addEdge g e else g)
    (fun _ => [])

/-- A `previous` entry: `{ from: current, edge: neighbor.edge }`. -/
structure Step where
  «from» : String
  edge : Edge
deriving DecidableEq, Repr

/-- The mutable working set of the search: `costs`, `previous`, `unvisited`. -/
structure DState where
  costs : String → JsNum
  previous : String → Option Step
  unvisited : List String

/-- The minimum scan (lines 52–60): fold over `unvisited` in order,
starting from `current = null`, `min = Infinity`, updating both whenever
`costs[n] < min` (strict, so the first minimum wins). -/
def scanMin (costs : String → JsNum) (unvisited : List String) : Option String × JsNum :=
  unvisited.foldl
    (fun acc n => if jsLt (costs n) acc.2 then (some n, costs n) else acc)
    (none, .inf)

/-- One relaxation step for a neighbor entry (lines 66–73): skip if the
neighbor is not unvisited; otherwise compare `costs[current] + neighbor.cost`
against `costs[neighbor.node]` and update `costs` and `previous` together. -/
def relaxStep (current : String) (st : DState) (nb : Adj) : DState :=
  if st.unvisited.contains nb.node then
    if jsLt (jsAdd (st.costs current) nb.cost) (st.costs nb.node) then
      { st with
        costs := fun k =>
          if k = nb.node then jsAdd (st.costs current) nb.cost else st.costs k,
        previous := fun k =>
          if k = nb.node then some ⟨current, nb.edge⟩ else st.previous k }
    else st
  else st

/-- The `for (const neighbor of graph[current])` loop. -/
def relaxAll (g : Graph) (current : String) (st : DState) : DState :=
  (g current).foldl (relaxStep current) st

/-- The `while (unvisited.size > 0)` selection loop (lines 51–74), with
explicit fuel.  Each executed iteration removes the selected node from
`unvisited`, so fuel `unvisited.length` is exact (proved below). -/
def loopFuel (g : Graph) (destination : String) : ℕ → DState → DState
  | 0, s => s
  | fuel + 1, s =>
    if s.unvisited.isEmpty then s
    else
      match (scanMin s.costs s.unvisited).1 with
      | none => s
      | some current =>
        if current = destination then s
        else
          loopFuel g destination fuel
            (relaxAll g current { s with unvisited := s.unvisited.erase current })

/-- The reconstruction loop `while (previous[current])` (lines 76–81),
with explicit fuel; `path.unshift` is modelled by prepending.  Returns
`none` only on fuel exhaustion with the walk still in progress. -/
def walkPrev (previous : String → Option Step) : ℕ → String → List Edge → Option (List Edge)
  | 0, current, path =>
    match previous current with
    | none => some path
    | some _ => none
  | fuel + 1, current, path =>
    match previous current with
    | none => some path
    | some st => walkPrev previous fuel st.«from» (st.edge :: path)

/-- `new Set(list)`: deduplicate keeping first occurrences, in order. -/
def mkSet (l : List String) : List String :=
  l.foldl (fun acc x => if acc.contains x then acc else acc ++ [x]) []

/-- The two ways a run of the source `dijkstra` can fail to produce a
result: a `TypeError` from pushing onto a missing adjacency key, or
(hypothetically) non-termination of the reconstruction walk. -/
inductive DijkstraErr where
  | typeError
  | fuelOut
deriving DecidableEq, Repr

/-- The returned object `{ path, cost: costs[destination] }`. -/
structure RouteResult where
  path : List Edge
  cost : JsNum
deriving DecidableEq, Repr

/-- The full `dijkstra(nodes, edges, source, destination, terrainFilter, maxCost)`
(lines 33–84).  An admitted edge with an endpoint that is not a node id
makes the JS code throw (`graph[...]` is `undefined`): modelled as
`.error .typeError` before any search state is observable. -/
def dijkstra (nodes : List Node) (edges : List Edge) (source destination : String)
    (tf : Edge → Bool) (maxCost : ℤ) : Except DijkstraErr RouteResult :=
  let ids := nodes.map Node.id
  if edges.any (fun e =>
      admissible tf maxCost e && (!(ids.contains e.start) || !(ids.contains e.«end»))) then
    .error .typeError
  else
    let g := buildGraph tf maxCost edges
    let costs0 : String → JsNum := fun k =>
      if k = source then .num 0 else if ids.contains k then .inf else .undefined
    let unvisited0 := mkSet ids
    let s0 : DState := ⟨costs0, fun _ => none, unvisited0⟩
    let s1 := loopFuel g destination unvisited0.length s0
    match walkPrev s1.previous (nodes.length + 1) destination [] with
    | none => .error .fuelOut
    | some path => .ok ⟨path, s1.costs destination⟩

/-! ### The six-node example graph hard-coded in the source (lines 8–26). -/

def nodeA : Node := ⟨"A", 100, 100⟩
def nodeB : Node := ⟨"B", 300, 80⟩
def nodeC : Node := ⟨"C", 200, 200⟩
def nodeD : Node := ⟨"D", 400, 180⟩
def nodeE : Node := ⟨"E", 350, 300⟩
def nodeF : Node := ⟨"F", 500, 280⟩

def exampleNodes : List Node := [nodeA, nodeB, nodeC, nodeD, nodeE, nodeF]

def eAB : Edge := ⟨"A", "B", 5, 1, 70, 40⟩
def eAC : Edge := ⟨"A", "C", 7, 2, 65, 35⟩
def eBD : Edge := ⟨"B", "D", 6, 1, 80, 45⟩
def eCD : Edge := ⟨"C", "D", 3, 3, 90, 50⟩
def eCE : Edge := ⟨"C", "E", 4, 2, 55, 25⟩
def eDF : Edge := ⟨"D", "F", 8, 1, 60, 30⟩
def eEF : Edge := ⟨"E", "F", 5, 2, 75, 40⟩

def exampleEdges : List Edge := [eAB, eAC, eBD, eCD, eCE, eDF, eEF]

/-- Deletion-time rank of a node in the (ordered) list of settled nodes;
equals `vis.length` when the node was never settled. -/
def timeOf (vis : List String) (v : String) : ℕ :=
  match vis with
  | [] => 0
  | w :: ws => if w = v then 0 else timeOf ws v + 1

/-- Every entry of the adjacency structure comes from an admitted edge of
the input list, carries that edge's cost, and joins the key to the entry's
`node` field via the edge's two endpoints. -/
def GraphConsistent (tf : Edge → Bool) (mc : ℤ) (E : List Edge) (g : Graph) : Prop :=
  ∀ n a, a ∈ g n →
    admissible tf mc a.edge = true ∧ a.edge ∈ E ∧ a.cost = calculateEdgeCost a.edge ∧
    ((a.edge.start = n ∧ a.edge.«end» = a.node) ∨ (a.edge.«end» = n ∧ a.edge.start = a.node))

/-- Invariant of the selection loop, relative to the source id, the
initial unvisited set `u0`, and the filter data.  `exVis` carries the
settled nodes in settlement order: every `previous` entry points from a
strictly earlier-settled node (so predecessor links are acyclic), was
written together with the cost it justifies, and stores an admitted edge
of the input joining the two nodes. -/
structure DInv (source : String) (u0 : List String) (tf : Edge → Bool) (mc : ℤ)
    (E : List Edge) (s : DState) : Prop where
  nodupU : s.unvisited.Nodup
  subU : ∀ w ∈ s.unvisited, w ∈ u0
  frozen : ∀ v, v ∉ u0 → s.costs v = if v = source then JsNum.num 0 else JsNum.undefined
  srcZero : s.costs source = JsNum.num 0
  quiet : source ∈ s.unvisited → ∀ v ∈ s.unvisited, v ≠ source → s.costs v = JsNum.inf
  fin : ∀ v q, s.costs v = JsNum.num q → v = source ∨ (s.previous v).isSome = true
  exVis : ∃ vis : List String, vis.Nodup ∧ (∀ w ∈ vis, w ∉ s.unvisited) ∧
    (∀ w ∈ vis, w ∈ u0) ∧
    ∀ v p, s.previous v = some p →
      p.«from» ∈ vis ∧ timeOf vis p.«from» < timeOf vis v ∧ v ∈ u0 ∧
      s.costs v = jsAdd (s.costs p.«from») (calculateEdgeCost p.edge) ∧
      admissible tf mc p.edge = true ∧ p.edge ∈ E ∧
      ((p.edge.start = p.«from» ∧ p.edge.«end» = v) ∨
        (p.edge.«end» = p.«from» ∧ p.edge.start = v))

/-- The part of the loop invariant threaded through the relaxation fold of
one iteration: `s` is the state at the start of the iteration, `current`
the node being settled, `vis` the previously settled nodes in order. -/
def RelaxInv (source : String) (u0 : List String) (tf : Edge → Bool) (mc : ℤ)
    (E : List Edge) (s : DState) (current : String) (vis : List String)
    (st : DState) : Prop :=
  st.unvisited = s.unvisited.erase current ∧
  (∀ w, w ∉ s.unvisited.erase current →
    st.costs w = s.costs w ∧ st.previous w = s.previous w) ∧
  (∀ v q, st.costs v = JsNum.num q → v = source ∨ (st.previous v).isSome = true) ∧
  (∀ v p, st.previous v = some p →
    p.«from» ∈ vis ++ [current] ∧
    timeOf (vis ++ [current]) p.«from» < timeOf (vis ++ [current]) v ∧ v ∈ u0 ∧
    st.costs v = jsAdd (st.costs p.«from») (calculateEdgeCost p.edge) ∧
    admissible tf mc p.edge = true ∧ p.edge ∈ E ∧
    ((p.edge.start = p.«from» ∧ p.edge.«end» = v) ∨
      (p.edge.«end» = p.«from» ∧ p.edge.start = v)))

/-- The initial cost table (lines 44–49): node ids get `Infinity`, then
`costs[source] = 0`; any other key was never written (`undefined`). -/
def initCosts (ids : List String) (source : String) : String → JsNum :=
  fun k => if k = source then .num 0 else if ids.contains k then .inf else .undefined

/-- The working set after the selection loop of a run of `dijkstra`. -/
def finalState (nodes : List Node) (edges : List Edge) (source destination : String)
    (tf : Edge → Bool) (maxCost : ℤ) : DState :=
  loopFuel (buildGraph tf maxCost edges) destination (mkSet (nodes.map Node.id)).length
    ⟨initCosts (nodes.map Node.id) source, fun _ => none, mkSet (nodes.map Node.id)⟩

/-- The construction-time failure test of a run: some admitted edge
references a node id absent from the node list (a JS `TypeError`). -/
def badEdgeCheck (nodes : List Node) (edges : List Edge) (tf : Edge → Bool)
    (maxCost : ℤ) : Bool :=
  edges.any (fun e => admissible tf maxCost e &&
    (!((nodes.map Node.id).contains e.start) || !((nodes.map Node.id).contains e.«end»)))

/-! ### Generic fold and list helpers -/

theorem foldl_preserve {α β : Type} (P : β → Prop) (f : β → α → β) :
    ∀ (l : List α) (b : β), (∀ acc x, x ∈ l → P acc → P (f acc x)) → P b → P (l.foldl f b)
  | [], _, _, hb => hb
  | x :: xs, b, hstep, hb =>
    foldl_preserve P f xs (f b x)
      (fun acc y hy hacc => hstep acc y (List.mem_cons_of_mem _ hy) hacc)
      (hstep b x (List.mem_cons_self _ _) hb)

theorem foldl_congr_steps {α β : Type} {f g : β → α → β} :
    ∀ (l : List α) (b : β), (∀ acc x, x ∈ l → f acc x = g acc x) →
      l.foldl f b = l.foldl g b
  | [], _, _ => rfl
  | x :: xs, b, h => by
    rw [List.foldl_cons, List.foldl_cons, h b x (List.mem_cons_self _ _)]
    exact foldl_congr_steps xs _ (fun acc y hy => h acc y (List.mem_cons_of_mem _ hy))

theorem foldl_filter_eq_of_inv {α β : Type} (f : β → α → β) (p : α → Bool) (P : β → Prop)
    (hpres : ∀ b x, P b → P (f b x))
    (hid : ∀ b x, P b → p x = false → f b x = b) :
    ∀ (l : List α) (b : β), P b → l.foldl f b = (l.filter p).foldl f b
  | [], _, _ => rfl
  | x :: xs, b, hP => by
    by_cases hx : p x = true
    · rw [List.filter_cons_of_pos hx, List.foldl_cons, List.foldl_cons]
      exact foldl_filter_eq_of_inv f p P hpres hid xs (f b x) (hpres b x hP)
    · rw [List.filter_cons_of_neg (by simpa using hx), List.foldl_cons,
        hid b x hP (by simpa using hx)]
      exact foldl_filter_eq_of_inv f p P hpres hid xs b hP

theorem any_filter_of_dropped_false {α : Type} (p q : α → Bool) :
    ∀ l : List α, (∀ x ∈ l, p x = false → q x = false) →
      l.any q = (l.filter p).any q
  | [], _ => rfl
  | x :: xs, h => by
    by_cases hx : p x = true
    · rw [List.filter_cons_of_pos hx, List.any_cons, List.any_cons,
        any_filter_of_dropped_false p q xs
          (fun y hy => h y (List.mem_cons_of_mem _ hy))]
    · rw [List.filter_cons_of_neg (by simpa using hx), List.any_cons,
        h x (List.mem_cons_self _ _) (by simpa using hx)]
      simp only [Bool.false_or]
      exact any_filter_of_dropped_false p q xs
        (fun y hy => h y (List.mem_cons_of_mem _ hy))

theorem timeOf_le_length (v : String) : ∀ vis : List String, timeOf vis v ≤ vis.length
  | [] => Nat.le_refl 0
  | w :: ws => by
    by_cases h : w = v
    · simp [timeOf, h]
    · simp only [timeOf, if_neg h, List.length_cons]
      exact Nat.succ_le_succ (timeOf_le_length v ws)

theorem timeOf_eq_length_of_not_mem {v : String} :
    ∀ {vis : List String}, v ∉ vis → timeOf vis v = vis.length
  | [], _ => rfl
  | w :: ws, h => by
    have hw : w ≠ v := fun hc => h (hc ▸ List.mem_cons_self _ _)
    have hvs : v ∉ ws := fun hc => h (List.mem_cons_of_mem _ hc)
    simp only [timeOf, if_neg hw, List.length_cons]
    exact congrArg Nat.succ (timeOf_eq_length_of_not_mem hvs)

theorem timeOf_lt_length_of_mem {v : String} :
    ∀ {vis : List String}, v ∈ vis → timeOf vis v < vis.length
  | [], h => absurd h (List.not_mem_nil v)
  | w :: ws, h => by
    by_cases hw : w = v
    · simp [timeOf, hw]
    · have hvs : v ∈ ws := by
        rcases List.mem_cons.mp h with h1 | h1
        · exact absurd h1.symm hw
        · exact h1
      simp only [timeOf, if_neg hw, List.length_cons]
      exact Nat.succ_lt_succ (timeOf_lt_length_of_mem hvs)

theorem timeOf_append_of_mem {v : String} :
    ∀ {vis : List String} (l : List String), v ∈ vis →
      timeOf (vis ++ l) v = timeOf vis v
  | [], _, h => absurd h (List.not_mem_nil v)
  | w :: ws, l, h => by
    by_cases hw : w = v
    · simp [timeOf, hw]
    · have hvs : v ∈ ws := by
        rcases List.mem_cons.mp h with h1 | h1
        · exact absurd h1.symm hw
        · exact h1
      simp only [List.cons_append, timeOf, if_neg hw]
      exact congrArg Nat.succ (timeOf_append_of_mem l hvs)

theorem timeOf_snoc_self {v : String} :
    ∀ {vis : List String}, v ∉ vis → timeOf (vis ++ [v]) v = vis.length
  | [], _ => by simp [timeOf]
  | w :: ws, h => by
    have hw : w ≠ v := fun hc => h (hc ▸ List.mem_cons_self _ _)
    have hvs : v ∉ ws := fun hc => h (List.mem_cons_of_mem _ hc)
    simp only [List.cons_append, timeOf, if_neg hw, List.length_cons]
    exact congrArg Nat.succ (timeOf_snoc_self hvs)

theorem timeOf_snoc_other {v c : String} (hvc : v ≠ c) :
    ∀ {vis : List String}, v ∉ vis → timeOf (vis ++ [c]) v = vis.length + 1
  | [], _ => by
    have hcv : c ≠ v := fun h => hvc h.symm
    simp [timeOf, hcv]
  | w :: ws, h => by
    have hw : w ≠ v := fun hc => h (hc ▸ List.mem_cons_self _ _)
    have hvs : v ∉ ws := fun hc => h (List.mem_cons_of_mem _ hc)
    simp only [List.cons_append, timeOf, if_neg hw, List.length_cons]
    exact congrArg Nat.succ (timeOf_snoc_other hvc hvs)

theorem nodup_subset_length {l1 l2 : List String} (h1 : l1.Nodup)
    (h2 : ∀ x ∈ l1, x ∈ l2) : l1.length ≤ l2.length :=
  (h1.subperm h2).length_le

/-! ### Properties of `mkSet` (JS `Set` construction) -/

theorem insFold_nodup : ∀ (l acc : List String), acc.Nodup →
    (l.foldl (fun acc x => if acc.contains x then acc else acc ++ [x]) acc).Nodup
  | [], _, h => h
  | x :: xs, acc, h => by
    rw [List.foldl_cons]
    by_cases hx : acc.contains x = true
    · rw [if_pos hx]; exact insFold_nodup xs acc h
    · rw [if_neg hx]
      have hxm : x ∉ acc := by simpa using hx
      refine insFold_nodup xs _ (h.append (List.nodup_singleton x) ?_)
      intro a ha hb
      rw [List.mem_singleton] at hb
      exact hxm (hb ▸ ha)

theorem insFold_mem (y : String) : ∀ (l acc : List String),
    y ∈ l.foldl (fun acc x => if acc.contains x then acc else acc ++ [x]) acc ↔
      y ∈ acc ∨ y ∈ l
  | [], acc => by simp
  | x :: xs, acc => by
    rw [List.foldl_cons]
    by_cases hx : acc.contains x = true
    · rw [if_pos hx, insFold_mem y xs acc]
      have hxm : x ∈ acc := by simpa using hx
      simp only [List.mem_cons]
      constructor
      · rintro (h | h)
        · exact Or.inl h
        · exact Or.inr (Or.inr h)
      · rintro (h | h | h)
        · exact Or.inl h
        · exact Or.inl (h ▸ hxm)
        · exact Or.inr h
    · rw [if_neg hx, insFold_mem y xs (acc ++ [x])]
      simp only [List.mem_append, List.mem_singleton, List.mem_cons]
      tauto

theorem insFold_length : ∀ (l acc : List String),
    (l.foldl (fun acc x => if acc.contains x then acc else acc ++ [x]) acc).length ≤
      acc.length + l.length
  | [], acc => Nat.le_of_eq (by simp)
  | x :: xs, acc => by
    rw [List.foldl_cons]
    by_cases hx : acc.contains x = true
    · rw [if_pos hx]
      calc _ ≤ acc.length + xs.length := insFold_length xs acc
        _ ≤ acc.length + (x :: xs).length := by simp [Nat.le_succ]
    · rw [if_neg hx]
      calc _ ≤ (acc ++ [x]).length + xs.length := insFold_length xs (acc ++ [x])
        _ = acc.length + (x :: xs).length := by simp [Nat.add_comm, Nat.add_assoc, Nat.add_left_comm]

theorem mkSet_nodup (l : List String) : (mkSet l).Nodup :=
  insFold_nodup l [] List.nodup_nil

theorem mem_mkSet {y : String} {l : List String} : y ∈ mkSet l ↔ y ∈ l := by
  unfold mkSet
  rw [insFold_mem]
  simp

theorem mkSet_length_le (l : List String) : (mkSet l).length ≤ l.length := by
  have := insFold_length l []
  simpa [mkSet] using this

/-! ### Properties of the minimum scan -/

theorem scanMin_aux_result (costs : String → JsNum) :
    ∀ (l : List String) (acc : Option String × JsNum),
      l.foldl (fun acc n => if jsLt (costs n) acc.2 then (some n, costs n) else acc) acc = acc ∨
      ∃ c, l.foldl (fun acc n => if jsLt (costs n) acc.2 then (some n, costs n) else acc) acc =
        (some c, costs c) ∧ c ∈ l
  | [], _ => Or.inl rfl
  | x :: xs, acc => by
    rw [List.foldl_cons]
    by_cases hx : jsLt (costs x) acc.2 = true
    · rw [if_pos hx]
      rcases scanMin_aux_result costs xs (some x, costs x) with h | ⟨c, hc, hm⟩
      · exact Or.inr ⟨x, by rw [h], List.mem_cons_self _ _⟩
      · exact Or.inr ⟨c, hc, List.mem_cons_of_mem _ hm⟩
    · rw [if_neg hx]
      rcases scanMin_aux_result costs xs acc with h | ⟨c, hc, hm⟩
      · exact Or.inl h
      · exact Or.inr ⟨c, hc, List.mem_cons_of_mem _ hm⟩

theorem scanMin_mem {costs : String → JsNum} {l : List String} {c : String}
    (h : (scanMin costs l).1 = some c) : c ∈ l := by
  unfold scanMin at h
  rcases scanMin_aux_result costs l (none, .inf) with h1 | ⟨c', hc', hm⟩
  · rw [h1] at h
    exact absurd h (by simp)
  · rw [hc'] at h
    simp only at h
    have hcc : c' = c := Option.some.inj h
    exact hcc ▸ hm

theorem scanMin_no_update (costs : String → JsNum) :
    ∀ (l : List String) (acc : Option String × JsNum),
      (∀ v ∈ l, jsLt (costs v) acc.2 = false) →
      l.foldl (fun acc n => if jsLt (costs n) acc.2 then (some n, costs n) else acc) acc = acc
  | [], _, _ => rfl
  | x :: xs, acc, h => by
    rw [List.foldl_cons,
      if_neg (by rw [h x (List.mem_cons_self _ _)]; exact Bool.false_ne_true)]
    exact scanMin_no_update costs xs acc (fun v hv => h v (List.mem_cons_of_mem _ hv))

theorem scanMin_all_inf {costs : String → JsNum} {l : List String}
    (h : ∀ v ∈ l, costs v = .inf) : scanMin costs l = (none, .inf) := by
  unfold scanMin
  exact scanMin_no_update costs l (none, .inf) (fun v hv => by rw [h v hv]; rfl)

theorem scanMin_source {costs : String → JsNum} {source : String} {q0 : ℤ} :
    ∀ {l : List String}, l.Nodup → source ∈ l → costs source = .num q0 →
      (∀ v ∈ l, v ≠ source → costs v = .inf) →
      scanMin costs l = (some source, .num q0)
  | [], _, hmem, _, _ => absurd hmem (List.not_mem_nil source)
  | x :: xs, hnd, hmem, hsrc, hinf => by
    unfold scanMin
    rw [List.foldl_cons]
    by_cases hx : x = source
    · subst hx
      rw [hsrc, if_pos (show jsLt (JsNum.num q0) ((none : Option String), JsNum.inf).2 = true from rfl)]
      apply scanMin_no_update
      intro v hv
      have hvs : v ≠ x := fun hc => (List.nodup_cons.mp hnd).1 (hc ▸ hv)
      rw [hinf v (List.mem_cons_of_mem _ hv) hvs]
      rfl
    · have hxs : costs x = .inf := hinf x (List.mem_cons_self _ _) hx
      rw [hxs, if_neg (show ¬ jsLt JsNum.inf ((none : Option String), JsNum.inf).2 = true by decide)]
      have hms : source ∈ xs := by
        rcases List.mem_cons.mp hmem with h | h
        · exact absurd h.symm hx
        · exact h
      have := scanMin_source (List.nodup_cons.mp hnd).2 hms hsrc
        (fun v hv hvs => hinf v (List.mem_cons_of_mem _ hv) hvs)
      unfold scanMin at this
      exact this

/-! ### What graph construction records about every adjacency entry -/

theorem buildGraph_consistent (tf : Edge → Bool) (mc : ℤ) (E : List Edge) :
    GraphConsistent tf mc E (buildGraph tf mc E) := by
  unfold buildGraph
  refine foldl_preserve _ _ E (fun _ => []) ?_ ?_
  · intro g' e he hg'
    by_cases hadm : admissible tf mc e = true
    · rw [if_pos hadm]
      intro n a ha
      simp only [addEdge] at ha
      by_cases h2 : n = e.«end»
      · rw [if_pos h2] at ha
        rcases List.mem_append.mp ha with ha1 | ha2
        · by_cases h1 : n = e.start
          · rw [if_pos h1] at ha1
            rcases List.mem_append.mp ha1 with hb1 | hb2
            · exact hg' n a hb1
            · rw [List.mem_singleton] at hb2
              subst hb2
              exact ⟨hadm, he, rfl, Or.inl ⟨h1.symm, rfl⟩⟩
          · rw [if_neg h1] at ha1
            exact hg' n a ha1
        · rw [List.mem_singleton] at ha2
          subst ha2
          exact ⟨hadm, he, rfl, Or.inr ⟨h2.symm, rfl⟩⟩
      · rw [if_neg h2] at ha
        by_cases h1 : n = e.start
        · rw [if_pos h1] at ha
          rcases List.mem_append.mp ha with hb1 | hb2
          · exact hg' n a hb1
          · rw [List.mem_singleton] at hb2
            subst hb2
            exact ⟨hadm, he, rfl, Or.inl ⟨h1.symm, rfl⟩⟩
        · rw [if_neg h1] at ha
          exact hg' n a ha
    · rw [if_neg hadm]
      exact hg'
  · intro n a ha
    exact absurd ha (List.not_mem_nil a)

/-! ### The search-loop invariant -/

theorem init_inv (source : String) (ids : List String) (tf : Edge → Bool) (mc : ℤ)
    (E : List Edge) :
    DInv source (mkSet ids) tf mc E
      ⟨fun k => if k = source then .num 0 else if ids.contains k then .inf else .undefined,
        fun _ => none, mkSet ids⟩ := by
  constructor
  · exact mkSet_nodup ids
  · exact fun w hw => hw
  · intro v hv
    dsimp only
    by_cases hvs : v = source
    · rw [if_pos hvs, if_pos hvs]
    · have : ids.contains v = false := by
        have : v ∉ ids := fun hc => hv (mem_mkSet.mpr hc)
        simpa using this
      rw [if_neg hvs, if_neg hvs, this]
      simp
  · simp
  · intro _ v hv hvs
    dsimp only
    have : ids.contains v = true := by
      have := mem_mkSet.mp hv
      simpa using this
    simp only [if_neg hvs, this, if_pos]
  · intro v q hvq
    dsimp only at hvq
    by_cases hvs : v = source
    · exact Or.inl hvs
    · rw [if_neg hvs] at hvq
      by_cases hc : ids.contains v = true
      · rw [hc] at hvq
        simp at hvq
      · simp only [Bool.not_eq_true] at hc
        rw [hc] at hvq
        simp at hvq
  · refine ⟨[], List.nodup_nil, ?_, ?_, ?_⟩
    · intro w hw
      exact absurd hw (List.not_mem_nil w)
    · intro w hw
      exact absurd hw (List.not_mem_nil w)
    · intro v p hp
      exact absurd hp (by simp)

/-- One executed iteration of the selection loop preserves the invariant:
the scanned node is settled (appended to the settlement order) and its
neighbors are relaxed. -/
theorem iter_inv {source : String} {u0 : List String} {tf : Edge → Bool} {mc : ℤ}
    {E : List Edge} {g : Graph} (hG : GraphConsistent tf mc E g) {s : DState}
    {current : String} (hInv : DInv source u0 tf mc E s)
    (hscan : (scanMin s.costs s.unvisited).1 = some current) :
    DInv source u0 tf mc E
      (relaxAll g current { s with unvisited := s.unvisited.erase current }) := by
  obtain ⟨vis, hvnd, hvdis, hvsub, hprev⟩ := hInv.exVis
  have hcur : current ∈ s.unvisited := scanMin_mem hscan
  have hcurN : current ∉ s.unvisited.erase current := fun hc =>
    ((hInv.nodupU.mem_erase_iff).mp hc).1 rfl
  have hsrcN : source ∉ s.unvisited.erase current := by
    by_cases hs : source ∈ s.unvisited
    · have hscan2 : scanMin s.costs s.unvisited = (some source, JsNum.num 0) :=
        scanMin_source hInv.nodupU hs hInv.srcZero (hInv.quiet hs)
      have h2 := hscan
      rw [hscan2] at h2
      have hcs : current = source := (Option.some.inj h2).symm
      rw [← hcs]
      exact hcurN
    · exact fun hc => hs (List.mem_of_mem_erase hc)
  have hcurVis : current ∉ vis := fun hc => hvdis current hc hcur
  have hvnd' : (vis ++ [current]).Nodup := by
    refine hvnd.append (List.nodup_singleton current) ?_
    intro a ha hb
    rw [List.mem_singleton] at hb
    exact hcurVis (hb ▸ ha)
  have htcur : timeOf (vis ++ [current]) current = vis.length := timeOf_snoc_self hcurVis
  have hdis' : ∀ w ∈ vis ++ [current], w ∉ s.unvisited.erase current := by
    intro w hw
    rcases List.mem_append.mp hw with hw1 | hw2
    · exact fun hc => hvdis w hw1 (List.mem_of_mem_erase hc)
    · rw [List.mem_singleton] at hw2
      exact hw2 ▸ hcurN
  have hsub' : ∀ w ∈ vis ++ [current], w ∈ u0 := by
    intro w hw
    rcases List.mem_append.mp hw with hw1 | hw2
    · exact hvsub w hw1
    · rw [List.mem_singleton] at hw2
      exact hw2 ▸ hInv.subU current hcur
  have hmono : ∀ v : String, timeOf vis v ≤ timeOf (vis ++ [current]) v := by
    intro v
    by_cases hv1 : v ∈ vis
    · rw [timeOf_append_of_mem [current] hv1]
    · by_cases hv2 : v = current
      · subst hv2
        rw [htcur, timeOf_eq_length_of_not_mem hv1]
      · rw [timeOf_snoc_other hv2 hv1, timeOf_eq_length_of_not_mem hv1]
        exact Nat.le_succ _
  have hfold : RelaxInv source u0 tf mc E s current vis
      (relaxAll g current { s with unvisited := s.unvisited.erase current }) := by
    unfold relaxAll
    refine foldl_preserve _ _ (g current) _ ?_ ?_
    · intro st nb hnb hst
      obtain ⟨hu, hfz, hfin, hpp⟩ := hst
      obtain ⟨hadm, hEm, hcosteq, hends⟩ := hG current nb hnb
      unfold RelaxInv
      unfold relaxStep
      by_cases hc1 : st.unvisited.contains nb.node = true
      · rw [if_pos hc1]
        have hnbm : nb.node ∈ s.unvisited.erase current := by
          rw [← hu]
          simpa using hc1
        have hne : current ≠ nb.node := fun h => hcurN (h ▸ hnbm)
        have hnbU : nb.node ∈ s.unvisited := List.mem_of_mem_erase hnbm
        have hnbVis' : nb.node ∉ vis ++ [current] := by
          intro hc
          rcases List.mem_append.mp hc with h1 | h2
          · exact hvdis nb.node h1 hnbU
          · rw [List.mem_singleton] at h2
            exact hne h2.symm
        by_cases hc2 : jsLt (jsAdd (st.costs current) nb.cost) (st.costs nb.node) = true
        · rw [if_pos hc2]
          refine ⟨hu, ?_, ?_, ?_⟩
          · intro w hw
            have hwne : w ≠ nb.node := fun h => hw (h ▸ hnbm)
            dsimp only
            rw [if_neg hwne, if_neg hwne]
            exact hfz w hw
          · intro v q hvq
            dsimp only at hvq ⊢
            by_cases hv : v = nb.node
            · rw [if_pos hv]
              simp
            · rw [if_neg hv] at hvq
              rcases hfin v q hvq with h | h
              · exact Or.inl h
              · rw [if_neg hv]
                exact Or.inr h
          · intro v p hp
            dsimp only at hp ⊢
            by_cases hv : v = nb.node
            · subst hv
              rw [if_pos rfl] at hp
              have hpeq : p = ⟨current, nb.edge⟩ := (Option.some.inj hp).symm
              subst hpeq
              refine ⟨List.mem_append_right _ (List.mem_singleton_self current), ?_,
                hInv.subU nb.node hnbU, ?_, hadm, hEm, hends⟩
              · rw [htcur, timeOf_eq_length_of_not_mem hnbVis']
                simp
              · rw [if_pos rfl, if_neg hne, ← hcosteq]
            · rw [if_neg hv] at hp
              obtain ⟨h1, h2, h3, h4, h5, h6, h7⟩ := hpp v p hp
              have hfne : p.«from» ≠ nb.node := fun h => hnbVis' (h ▸ h1)
              rw [if_neg hv, if_neg hfne]
              exact ⟨h1, h2, h3, h4, h5, h6, h7⟩
        · rw [if_neg hc2]
          exact ⟨hu, hfz, hfin, hpp⟩
      · rw [if_neg hc1]
        exact ⟨hu, hfz, hfin, hpp⟩
    · refine ⟨rfl, fun w _ => ⟨rfl, rfl⟩, hInv.fin, ?_⟩
      intro v p hp
      obtain ⟨h1, h2, h3, h4, h5, h6, h7⟩ := hprev v p hp
      refine ⟨List.mem_append_left _ h1, ?_, h3, h4, h5, h6, h7⟩
      calc timeOf (vis ++ [current]) p.«from» = timeOf vis p.«from» :=
            timeOf_append_of_mem _ h1
        _ < timeOf vis v := h2
        _ ≤ timeOf (vis ++ [current]) v := hmono v
  obtain ⟨hu, hfz, hfin, hpp⟩ := hfold
  refine ⟨?_, ?_, ?_, ?_, ?_, hfin, ?_⟩
  · rw [hu]
    exact hInv.nodupU.erase current
  · rw [hu]
    exact fun w hw => hInv.subU w (List.mem_of_mem_erase hw)
  · intro v hv
    have hvN : v ∉ s.unvisited.erase current := fun hc =>
      hv (hInv.subU v (List.mem_of_mem_erase hc))
    rw [(hfz v hvN).1]
    exact hInv.frozen v hv
  · rw [(hfz source hsrcN).1]
    exact hInv.srcZero
  · intro hs
    rw [hu] at hs
    exact absurd hs hsrcN
  · refine ⟨vis ++ [current], hvnd', ?_, hsub', hpp⟩
    rw [hu]
    exact hdis'

theorem loopFuel_inv {source : String} {u0 : List String} {tf : Edge → Bool} {mc : ℤ}
    {E : List Edge} {g : Graph} {dest : String} (hG : GraphConsistent tf mc E g) :
    ∀ (fuel : ℕ) (s : DState), DInv source u0 tf mc E s →
      DInv source u0 tf mc E (loopFuel g dest fuel s)
  | 0, _, h => h
  | fuel + 1, s, h => by
    rw [loopFuel]
    by_cases he : s.unvisited.isEmpty = true
    · rw [if_pos he]
      exact h
    · rw [if_neg he]
      cases hsc : (scanMin s.costs s.unvisited).1 with
      | none => exact h
      | some current =>
        show DInv source u0 tf mc E
          (if current = dest then s
           else loopFuel g dest fuel
             (relaxAll g current { s with unvisited := s.unvisited.erase current }))
        by_cases hd : current = dest
        · rw [if_pos hd]
          exact h
        · rw [if_neg hd]
          exact loopFuel_inv hG fuel _ (iter_inv hG h hsc)

theorem relaxAll_unvisited (g : Graph) (current : String) (st : DState) :
    (relaxAll g current st).unvisited = st.unvisited := by
  unfold relaxAll
  refine foldl_preserve (fun acc : DState => acc.unvisited = st.unvisited) _
    (g current) _ ?_ rfl
  intro acc nb _ hacc
  unfold relaxStep
  by_cases hc1 : acc.unvisited.contains nb.node = true
  · rw [if_pos hc1]
    by_cases hc2 : jsLt (jsAdd (acc.costs current) nb.cost) (acc.costs nb.node) = true
    · rw [if_pos hc2]
      exact hacc
    · rw [if_neg hc2]
      exact hacc
  · rw [if_neg hc1]
    exact hacc

/-- The selection loop is insensitive to extra fuel beyond the number of
unvisited nodes: every executed iteration removes exactly one node. -/
theorem loopFuel_congr {g : Graph} {dest : String} :
    ∀ (f1 f2 : ℕ) (s : DState), s.unvisited.length ≤ f1 → s.unvisited.length ≤ f2 →
      loopFuel g dest f1 s = loopFuel g dest f2 s
  | 0, f2, s, h1, _ => by
    have he : s.unvisited.isEmpty = true := by
      have : s.unvisited = [] := List.length_eq_zero.mp (Nat.le_zero.mp h1)
      simp [this]
    cases f2 with
    | zero => rfl
    | succ k =>
      show s = loopFuel g dest (k + 1) s
      rw [loopFuel, if_pos he]
  | f1 + 1, f2, s, h1, h2 => by
    by_cases he : s.unvisited.isEmpty = true
    · cases f2 with
      | zero =>
        show loopFuel g dest (f1 + 1) s = s
        rw [loopFuel, if_pos he]
      | succ k =>
        rw [loopFuel, loopFuel, if_pos he, if_pos he]
    · have hpos : 1 ≤ s.unvisited.length := by
        have : s.unvisited ≠ [] := by simpa [List.isEmpty_iff] using he
        exact Nat.pos_of_ne_zero (fun h0 => this (List.length_eq_zero.mp h0))
      obtain ⟨k, rfl⟩ : ∃ k, f2 = k + 1 := ⟨f2 - 1, by omega⟩
      rw [loopFuel, loopFuel, if_neg he, if_neg he]
      cases hsc : (scanMin s.costs s.unvisited).1 with
      | none => rfl
      | some current =>
        show
          (if current = dest then s
           else loopFuel g dest f1
             (relaxAll g current { s with unvisited := s.unvisited.erase current })) =
          (if current = dest then s
           else loopFuel g dest k
             (relaxAll g current { s with unvisited := s.unvisited.erase current }))
        by_cases hd : current = dest
        · rw [if_pos hd, if_pos hd]
        · rw [if_neg hd, if_neg hd]
          have hlen :
              (relaxAll g current
                { s with unvisited := s.unvisited.erase current }).unvisited.length =
              s.unvisited.length - 1 := by
            rw [relaxAll_unvisited]
            exact List.length_erase_of_mem (scanMin_mem hsc)
          refine loopFuel_congr f1 k _ ?_ ?_
          · omega
          · omega

/-! ### Reconstruction-walk lemmas -/

/-- Acyclicity of the predecessor links: the walk halts strictly within
the rank of its starting node. -/
theorem walk_isSome {prev : String → Option Step} {vis : List String}
    (hrank : ∀ v p, prev v = some p →
      p.«from» ∈ vis ∧ timeOf vis p.«from» < timeOf vis v) :
    ∀ (n : ℕ) (v : String) (acc : List Edge), timeOf vis v < n →
      (walkPrev prev n v acc).isSome = true
  | 0, _, _, h => absurd h (Nat.not_lt_zero _)
  | n + 1, v, acc, h => by
    rw [walkPrev]
    cases hp : prev v with
    | none => rfl
    | some p =>
      obtain ⟨_, h2⟩ := hrank v p hp
      exact walk_isSome hrank n p.«from» (p.edge :: acc)
        (lt_of_lt_of_le h2 (Nat.lt_succ_iff.mp h))

/-- Every edge put on the path by the walk comes from some `previous`
entry (or was already in the accumulator). -/
theorem walk_edges {prev : String → Option Step} (P : Edge → Prop)
    (hP : ∀ v p, prev v = some p → P p.edge) :
    ∀ (n : ℕ) (v : String) (acc L : List Edge), walkPrev prev n v acc = some L →
      ∀ e ∈ L, P e ∨ e ∈ acc
  | 0, v, acc, L, hL => by
    rw [walkPrev] at hL
    cases hp : prev v with
    | none =>
      rw [hp] at hL
      simp only [Option.some.injEq] at hL
      subst hL
      exact fun e he => Or.inr he
    | some p =>
      rw [hp] at hL
      exact absurd hL (by simp)
  | n + 1, v, acc, L, hL => by
    rw [walkPrev] at hL
    cases hp : prev v with
    | none =>
      rw [hp] at hL
      simp only [Option.some.injEq] at hL
      subst hL
      exact fun e he => Or.inr he
    | some p =>
      rw [hp] at hL
      intro e he
      rcases walk_edges P hP n p.«from» (p.edge :: acc) L hL e he with h | h
      · exact Or.inl h
      · rcases List.mem_cons.mp h with h1 | h2
        · exact Or.inl (h1 ▸ hP v p hp)
        · exact Or.inr h2

/-- The telescoping-sum property of the walk: if the starting node has a
finite cost, that cost is exactly the sum of the edge costs collected. -/
theorem walk_sum {prev : String → Option Step} {costs : String → JsNum} {source : String}
    (hsum : ∀ v p, prev v = some p →
      costs v = jsAdd (costs p.«from») (calculateEdgeCost p.edge))
    (hfin : ∀ v q, costs v = JsNum.num q → v = source ∨ (prev v).isSome = true)
    (hsrc : costs source = JsNum.num 0) :
    ∀ (n : ℕ) (v : String) (acc L : List Edge) (q : ℤ),
      walkPrev prev n v acc = some L → costs v = JsNum.num q →
      ∃ pre : List Edge, L = pre ++ acc ∧ q = (pre.map calculateEdgeCost).sum
  | 0, v, acc, L, q, hL, hvq => by
    rw [walkPrev] at hL
    cases hp : prev v with
    | none =>
      rw [hp] at hL
      simp only [Option.some.injEq] at hL
      subst hL
      have hv : v = source := by
        rcases hfin v q hvq with h | h
        · exact h
        · rw [hp] at h
          exact absurd h (by simp)
      subst hv
      rw [hsrc] at hvq
      refine ⟨[], by simp, ?_⟩
      have : (0 : ℤ) = q := JsNum.num.inj hvq
      simp [← this]
    | some p =>
      rw [hp] at hL
      exact absurd hL (by simp)
  | n + 1, v, acc, L, q, hL, hvq => by
    rw [walkPrev] at hL
    cases hp : prev v with
    | none =>
      rw [hp] at hL
      simp only [Option.some.injEq] at hL
      subst hL
      have hv : v = source := by
        rcases hfin v q hvq with h | h
        · exact h
        · rw [hp] at h
          exact absurd h (by simp)
      subst hv
      rw [hsrc] at hvq
      refine ⟨[], by simp, ?_⟩
      have : (0 : ℤ) = q := JsNum.num.inj hvq
      simp [← this]
    | some p =>
      rw [hp] at hL
      have hceq := hsum v p hp
      rw [hvq] at hceq
      cases hcf : costs p.«from» with
      | undefined => rw [hcf] at hceq; exact absurd hceq (by simp [jsAdd])
      | nan => rw [hcf] at hceq; exact absurd hceq (by simp [jsAdd])
      | inf => rw [hcf] at hceq; exact absurd hceq (by simp [jsAdd])
      | num a =>
        rw [hcf] at hceq
        simp only [jsAdd, JsNum.num.injEq] at hceq
        obtain ⟨pre', hL', hq'⟩ :=
          walk_sum hsum hfin hsrc n p.«from» (p.edge :: acc) L a hL hcf
        refine ⟨pre' ++ [p.edge], ?_, ?_⟩
        · rw [hL', List.append_assoc]
          simp
        · rw [List.map_append, List.sum_append]
          simp only [List.map_cons, List.map_nil, List.sum_cons, List.sum_nil]
          omega

/-! ### Run-level decomposition of `dijkstra` -/

theorem dijkstra_eq (nodes : List Node) (edges : List Edge) (source destination : String)
    (tf : Edge → Bool) (maxCost : ℤ) :
    dijkstra nodes edges source destination tf maxCost =
      if badEdgeCheck nodes edges tf maxCost then .error .typeError
      else
        match walkPrev (finalState nodes edges source destination tf maxCost).previous
            (nodes.length + 1) destination [] with
        | none => .error .fuelOut
        | some path =>
          .ok ⟨path,
            (finalState nodes edges source destination tf maxCost).costs destination⟩ :=
  rfl

theorem finalState_inv (nodes : List Node) (edges : List Edge)
    (source destination : String) (tf : Edge → Bool) (maxCost : ℤ) :
    DInv source (mkSet (nodes.map Node.id)) tf maxCost edges
      (finalState nodes edges source destination tf maxCost) :=
  loopFuel_inv (buildGraph_consistent tf maxCost edges) _ _
    (init_inv source (nodes.map Node.id) tf maxCost edges)

/-- The reconstruction walk of every run halts within its fuel. -/
theorem finalState_walk_isSome (nodes : List Node) (edges : List Edge)
    (source destination : String) (tf : Edge → Bool) (maxCost : ℤ) :
    (walkPrev (finalState nodes edges source destination tf maxCost).previous
      (nodes.length + 1) destination []).isSome = true := by
  obtain ⟨vis, hvnd, _, hvsub, hprev⟩ :=
    (finalState_inv nodes edges source destination tf maxCost).exVis
  have hlt : timeOf vis destination < nodes.length + 1 := by
    have h1 : timeOf vis destination ≤ vis.length := timeOf_le_length _ _
    have h2 : vis.length ≤ (mkSet (nodes.map Node.id)).length :=
      nodup_subset_length hvnd hvsub
    have h3 : (mkSet (nodes.map Node.id)).length ≤ (nodes.map Node.id).length :=
      mkSet_length_le _
    have h4 : (nodes.map Node.id).length = nodes.length := List.length_map _ _
    omega
  exact walk_isSome (fun v p hp => ⟨(hprev v p hp).1, (hprev v p hp).2.1⟩)
    (nodes.length + 1) destination [] hlt

/-- If the very first scan already breaks the loop (no selectable node, or
the selected node is the destination), the loop returns its input state. -/
theorem loop_break_first {g : Graph} {dest : String} {s : DState}
    (hbreak : (scanMin s.costs s.unvisited).1 = none ∨
      (scanMin s.costs s.unvisited).1 = some dest) :
    ∀ fuel, loopFuel g dest fuel s = s := by
  intro fuel
  cases fuel with
  | zero => rfl
  | succ n =>
    rw [loopFuel]
    by_cases he : s.unvisited.isEmpty = true
    · rw [if_pos he]
    · rw [if_neg he]
      cases hsc : (scanMin s.costs s.unvisited).1 with
      | none => rfl
      | some c =>
        have hcd : c = dest := by
          rcases hbreak with h | h
          · rw [hsc] at h
            exact absurd h (by simp)
          · rw [hsc] at h
            exact Option.some.inj h
        show (if c = dest then s
          else loopFuel g dest n
            (relaxAll g c { s with unvisited := s.unvisited.erase c })) = s
        rw [if_pos hcd]

theorem init_scan_eq_source {ids : List String} {source : String}
    (hs : source ∈ mkSet ids) :
    scanMin (initCosts ids source) (mkSet ids) = (some source, .num 0) :=
  scanMin_source (mkSet_nodup ids) hs (by simp [initCosts])
    (fun v hv hvs => by
      have hm : v ∈ ids := mem_mkSet.mp hv
      simp [initCosts, hvs, hm])

theorem init_scan_none {ids : List String} {source : String}
    (hs : source ∉ mkSet ids) :
    scanMin (initCosts ids source) (mkSet ids) = (none, .inf) :=
  scanMin_all_inf (fun v hv => by
    have hvs : v ≠ source := fun hc => hs (hc ▸ hv)
    have hm : v ∈ ids := mem_mkSet.mp hv
    simp [initCosts, hvs, hm])

theorem dijkstra_ok_inversion {nodes : List Node} {edges : List Edge}
    {source destination : String} {tf : Edge → Bool} {maxCost : ℤ} {r : RouteResult}
    (h : dijkstra nodes edges source destination tf maxCost = .ok r) :
    badEdgeCheck nodes edges tf maxCost = false ∧
    walkPrev (finalState nodes edges source destination tf maxCost).previous
      (nodes.length + 1) destination [] = some r.path ∧
    r.cost = (finalState nodes edges source destination tf maxCost).costs destination := by
  rw [dijkstra_eq] at h
  by_cases hb : badEdgeCheck nodes edges tf maxCost = true
  · rw [if_pos hb] at h
    cases h
  · rw [if_neg hb] at h
    cases hw : walkPrev (finalState nodes edges source destination tf maxCost).previous
        (nodes.length + 1) destination [] with
    | none =>
      rw [hw] at h
      cases h
    | some path =>
      rw [hw] at h
      have hr := Except.ok.inj h
      subst hr
      refine ⟨by simpa using hb, ?_, rfl⟩
      dsimp only

/-- C4: for every edge, `cost(edge)` equals
`distance × (materialCost + laborCost)`, and this value is non-negative
whenever distance, materialCost and laborCost are non-negative. -/
theorem calculateEdgeCost_formula_nonneg (e : Edge) :
    calculateEdgeCost e = e.distance * (e.materialCost + e.laborCost) ∧
    (0 ≤ e.distance → 0 ≤ e.materialCost → 0 ≤ e.laborCost →
      0 ≤ calculateEdgeCost e) :=
  ⟨rfl, fun hd hm hl => mul_nonneg hd (add_nonneg hm hl)⟩

/-- Witness for C4 at the concrete edge A–B of the example graph. -/
theorem calculateEdgeCost_formula_nonneg_witness :
    calculateEdgeCost eAB = eAB.distance * (eAB.materialCost + eAB.laborCost) ∧
    0 ≤ calculateEdgeCost eAB :=
  ⟨(calculateEdgeCost_formula_nonneg eAB).1,
    (calculateEdgeCost_formula_nonneg eAB).2 (by decide) (by decide) (by decide)⟩

/-- C2 counterexample: for the query A→B on a two-node graph with no
edges, the returned cost is the `Infinity` sentinel while the returned
path is empty, so the cost does not equal the sum of the returned path's
edge costs (which is 0).  The claim fails for queries with no path. -/
theorem dijkstra_cost_sum_mismatch_unreachable :
    dijkstra [nodeA, nodeB] [] "A" "B" (fun _ => true) 10000 = .ok ⟨[], .inf⟩ ∧
    JsNum.inf ≠ JsNum.num ((([] : List Edge).map calculateEdgeCost).sum) :=
  ⟨by rfl, by decide⟩

/-- C2 amended: for every query whose returned cost is a finite number,
that number equals the sum of `cost(edge)` over the edges of the returned
path, the sum being computed independently of the search's internal
bookkeeping. -/
theorem dijkstra_cost_eq_path_sum_of_finite
    (nodes : List Node) (edges : List Edge) (source destination : String)
    (tf : Edge → Bool) (maxCost : ℤ) (r : RouteResult) (q : ℤ)
    (hok : dijkstra nodes edges source destination tf maxCost = .ok r)
    (hq : r.cost = .num q) :
    q = (r.path.map calculateEdgeCost).sum := by
  obtain ⟨_, hwalk, hcost⟩ := dijkstra_ok_inversion hok
  have inv := finalState_inv nodes edges source destination tf maxCost
  obtain ⟨vis, _, _, _, hprev⟩ := inv.exVis
  obtain ⟨pre, hpre, hqs⟩ :=
    walk_sum (fun v p hp => (hprev v p hp).2.2.2.1) inv.fin inv.srcZero
      (nodes.length + 1) destination [] r.path q hwalk (by rw [← hcost, hq])
  rw [List.append_nil] at hpre
  rw [hpre]
  exact hqs

/-- Witness for C2's amended theorem: the A→F run on the example graph
returns cost 1595 = 700 + 320 + 575. -/
theorem dijkstra_cost_eq_path_sum_of_finite_witness :
    (1595 : ℤ) = (([eAC, eCE, eEF].map calculateEdgeCost).sum) :=
  dijkstra_cost_eq_path_sum_of_finite exampleNodes exampleEdges "A" "F"
    (fun _ => true) 10000 ⟨[eAC, eCE, eEF], .num 1595⟩ 1595 (by rfl) rfl

/-- C9 counterexample: an edge with negative distance is not rejected or
clamped: the search silently admits it, uses its negative cost, and
returns it in the path with total cost −550 — no validation failure is
surfaced before the search. -/
theorem negative_edge_silently_used :
    dijkstra [nodeA, nodeB] [⟨"A", "B", -5, 1, 70, 40⟩] "A" "B" (fun _ => true) 10000 =
      .ok ⟨[⟨"A", "B", -5, 1, 70, 40⟩], .num (-550)⟩ := by
  rfl

/-- C9 amended: there is no construction-time validation of signs: the
only error a run can raise is the `TypeError` caused by an admitted edge
referencing a missing node id; in particular negative distances or cost
components are used silently. -/
theorem dijkstra_error_only_typeError
    (nodes : List Node) (edges : List Edge) (source destination : String)
    (tf : Edge → Bool) (maxCost : ℤ) (err : DijkstraErr)
    (herr : dijkstra nodes edges source destination tf maxCost = .error err) :
    err = .typeError ∧ badEdgeCheck nodes edges tf maxCost = true := by
  rw [dijkstra_eq] at herr
  by_cases hb : badEdgeCheck nodes edges tf maxCost = true
  · rw [if_pos hb] at herr
    exact ⟨(Except.error.inj herr).symm, hb⟩
  · rw [if_neg hb] at herr
    have hsome := finalState_walk_isSome nodes edges source destination tf maxCost
    cases hw : walkPrev (finalState nodes edges source destination tf maxCost).previous
        (nodes.length + 1) destination [] with
    | none =>
      rw [hw] at hsome
      exact absurd hsome (by simp)
    | some path =>
      rw [hw] at herr
      cases herr

/-- Witness for C9's amended theorem: a run whose only edge references
missing node ids errors with exactly the `TypeError`. -/
theorem dijkstra_error_only_typeError_witness :
    DijkstraErr.typeError = DijkstraErr.typeError ∧
    badEdgeCheck [nodeA] [⟨"B", "C", 1, 1, 1, 1⟩] (fun _ => true) 10000 = true :=
  dijkstra_error_only_typeError [nodeA] [⟨"B", "C", 1, 1, 1, 1⟩] "A" "A"
    (fun _ => true) 10000 .typeError (by rfl)

/-- C10: the search terminates on every input: a run never exhausts the
reconstruction fuel (the predecessor links are acyclic), and the
selection loop is insensitive to fuel beyond the size of the unvisited
set (each executed iteration strictly shrinks it or breaks). -/
theorem dijkstra_terminates (nodes : List Node) (edges : List Edge)
    (source destination : String) (tf : Edge → Bool) (maxCost : ℤ) :
    dijkstra nodes edges source destination tf maxCost ≠ .error .fuelOut ∧
    ∀ (g : Graph) (dest : String) (extra : ℕ) (st : DState),
      loopFuel g dest (st.unvisited.length + extra) st =
        loopFuel g dest st.unvisited.length st := by
  constructor
  · intro hcon
    rw [dijkstra_eq] at hcon
    by_cases hb : badEdgeCheck nodes edges tf maxCost = true
    · rw [if_pos hb] at hcon
      cases hcon
    · rw [if_neg hb] at hcon
      have hsome := finalState_walk_isSome nodes edges source destination tf maxCost
      cases hw : walkPrev (finalState nodes edges source destination tf maxCost).previous
          (nodes.length + 1) destination [] with
      | none =>
        rw [hw] at hsome
        exact absurd hsome (by simp)
      | some path =>
        rw [hw] at hcon
        cases hcon
  · intro g dest extra st
    exact loopFuel_congr (st.unvisited.length + extra) st.unvisited.length st
      (by omega) (Nat.le_refl _)

/-- C5: for every graph whose edges reference existing node ids and every
filter, a query with `source = destination` returns the empty path with
cost exactly zero and raises no error: the first scan either selects the
source (which is the destination, so the loop breaks before settling
anything) or selects nothing. -/
theorem dijkstra_source_eq_destination
    (nodes : List Node) (edges : List Edge) (source : String)
    (tf : Edge → Bool) (maxCost : ℤ)
    (hwf : ∀ e ∈ edges, e.start ∈ nodes.map Node.id ∧ e.«end» ∈ nodes.map Node.id) :
    dijkstra nodes edges source source tf maxCost = .ok ⟨[], .num 0⟩ := by
  have hb : badEdgeCheck nodes edges tf maxCost = false := by
    rw [badEdgeCheck, List.any_eq_false]
    intro e he
    obtain ⟨h1, h2⟩ := hwf e he
    have hc1 : (nodes.map Node.id).contains e.start = true := by simpa using h1
    have hc2 : (nodes.map Node.id).contains e.«end» = true := by simpa using h2
    rw [hc1, hc2]
    simp
  rw [dijkstra_eq, if_neg (by simp [hb])]
  have hloop : finalState nodes edges source source tf maxCost =
      DState.mk (initCosts (nodes.map Node.id) source) (fun _ => none)
        (mkSet (nodes.map Node.id)) := by
    unfold finalState
    apply loop_break_first
    by_cases hs : source ∈ mkSet (nodes.map Node.id)
    · right
      rw [init_scan_eq_source hs]
    · left
      rw [init_scan_none hs]
  rw [hloop]
  show (match walkPrev (fun _ => none : String → Option Step) (nodes.length + 1)
        source [] with
    | none => (Except.error DijkstraErr.fuelOut : Except DijkstraErr RouteResult)
    | some path =>
      Except.ok (RouteResult.mk path (initCosts (nodes.map Node.id) source source))) =
    Except.ok (RouteResult.mk [] (JsNum.num 0))
  have hwalk : walkPrev (fun _ => none : String → Option Step) (nodes.length + 1)
      source [] = some [] := by
    rw [walkPrev]
  rw [hwalk, show initCosts (nodes.map Node.id) source source = JsNum.num 0 from by
    simp [initCosts]]

/-- Witness for C5: the same-node query A→A on the example graph. -/
theorem dijkstra_source_eq_destination_witness :
    dijkstra exampleNodes exampleEdges "A" "A" (fun _ => true) 10000 =
      .ok ⟨[], .num 0⟩ :=
  dijkstra_source_eq_destination exampleNodes exampleEdges "A" (fun _ => true) 10000
    (by decide)

/-- C3: every edge of a returned path satisfies the filter predicate
(terrain at most the ceiling whenever the terrain filter is enabled, and
edge cost at most `maxCost`), and an edge failing either clause is
entirely absent from the traversal graph built for that query. -/
theorem dijkstra_path_respects_filter
    (nodes : List Node) (edges : List Edge) (source destination : String)
    (enabled : Bool) (maxTerrain maxCost : ℤ) (r : RouteResult)
    (hok : dijkstra nodes edges source destination
      (terrainFilter enabled maxTerrain) maxCost = .ok r) :
    (∀ e ∈ r.path, (enabled = true → e.terrain ≤ maxTerrain) ∧
      calculateEdgeCost e ≤ maxCost) ∧
    (∀ e : Edge, ¬ (terrainFilter enabled maxTerrain e = true ∧
        calculateEdgeCost e ≤ maxCost) →
      ∀ n a, a ∈ buildGraph (terrainFilter enabled maxTerrain) maxCost edges n →
        a.edge ≠ e) := by
  constructor
  · obtain ⟨_, hwalk, _⟩ := dijkstra_ok_inversion hok
    obtain ⟨vis, _, _, _, hprev⟩ := (finalState_inv nodes edges source destination
      (terrainFilter enabled maxTerrain) maxCost).exVis
    intro e he
    rcases walk_edges
        (fun e => admissible (terrainFilter enabled maxTerrain) maxCost e = true)
        (fun v p hp => (hprev v p hp).2.2.2.2.1)
        (nodes.length + 1) destination [] r.path hwalk e he with h | h
    · rw [admissible, Bool.and_eq_true] at h
      obtain ⟨ht, hc⟩ := h
      refine ⟨?_, by simpa using hc⟩
      intro hen
      rw [terrainFilter, hen] at ht
      simpa using ht
    · exact absurd h (List.not_mem_nil e)
  · intro e hne n a ha hae
    have hadm := (buildGraph_consistent (terrainFilter enabled maxTerrain) maxCost
      edges n a ha).1
    rw [hae, admissible, Bool.and_eq_true] at hadm
    exact hne ⟨hadm.1, by simpa using hadm.2⟩

/-- Witness for C3 on the example graph with the terrain filter enabled
at ceiling 3 and `maxCost` 10000. -/
theorem dijkstra_path_respects_filter_witness :
    (∀ e ∈ ({ path := [eAC, eCE, eEF], cost := .num 1595 } : RouteResult).path,
      (true = true → e.terrain ≤ 3) ∧ calculateEdgeCost e ≤ 10000) ∧
    (∀ e : Edge, ¬ (terrainFilter true 3 e = true ∧ calculateEdgeCost e ≤ 10000) →
      ∀ n a, a ∈ buildGraph (terrainFilter true 3) 10000 exampleEdges n →
        a.edge ≠ e) :=
  dijkstra_path_respects_filter exampleNodes exampleEdges "A" "F" true 3 10000
    ⟨[eAC, eCE, eEF], .num 1595⟩ (by rfl)

theorem badEdgeCheck_eq_false_of_wf {nodes : List Node} {edges : List Edge}
    {tf : Edge → Bool} {maxCost : ℤ}
    (hwf : ∀ e ∈ edges, e.start ∈ nodes.map Node.id ∧ e.«end» ∈ nodes.map Node.id) :
    badEdgeCheck nodes edges tf maxCost = false := by
  rw [badEdgeCheck, List.any_eq_false]
  intro e he
  obtain ⟨h1, h2⟩ := hwf e he
  have hc1 : (nodes.map Node.id).contains e.start = true := by simpa using h1
  have hc2 : (nodes.map Node.id).contains e.«end» = true := by simpa using h2
  rw [hc1, hc2]
  simp

/-- C6 counterexample: querying the example graph with the absent
destination id "Z" returns cost `undefined`, not the `Infinity` sentinel
that unreachable runs (for example the absent-source query Z→F) return. -/
theorem dijkstra_absent_destination_not_inf :
    dijkstra exampleNodes exampleEdges "A" "Z" (fun _ => true) 10000 =
      .ok ⟨[], .undefined⟩ ∧
    dijkstra exampleNodes exampleEdges "Z" "F" (fun _ => true) 10000 =
      .ok ⟨[], .inf⟩ ∧
    JsNum.undefined ≠ JsNum.inf :=
  ⟨by rfl, by rfl, by decide⟩

/-- C6 amended: on a well-formed graph, a query whose source or
destination id is absent from the node set (with source ≠ destination)
throws no error and returns an empty path with a non-finite cost:
`Infinity` when the destination id is present (source absent), and
`undefined` when the destination id itself is absent. -/
theorem dijkstra_absent_endpoint_no_path
    (nodes : List Node) (edges : List Edge) (source destination : String)
    (tf : Edge → Bool) (maxCost : ℤ)
    (hwf : ∀ e ∈ edges, e.start ∈ nodes.map Node.id ∧ e.«end» ∈ nodes.map Node.id)
    (hne : source ≠ destination)
    (habs : source ∉ nodes.map Node.id ∨ destination ∉ nodes.map Node.id) :
    dijkstra nodes edges source destination tf maxCost =
      .ok ⟨[], if destination ∈ nodes.map Node.id then JsNum.inf else JsNum.undefined⟩ ∧
    ∀ q : ℤ,
      (if destination ∈ nodes.map Node.id then JsNum.inf else JsNum.undefined) ≠
        JsNum.num q := by
  have hb : ¬ badEdgeCheck nodes edges tf maxCost = true := by
    simp [badEdgeCheck_eq_false_of_wf hwf]
  have hds : destination ≠ source := fun h => hne h.symm
  constructor
  · rw [dijkstra_eq, if_neg hb]
    by_cases hs : source ∈ nodes.map Node.id
    · have hd : destination ∉ nodes.map Node.id := by
        rcases habs with h | h
        · exact absurd hs h
        · exact h
      have inv := finalState_inv nodes edges source destination tf maxCost
      have hdu0 : destination ∉ mkSet (nodes.map Node.id) :=
        fun hc => hd (mem_mkSet.mp hc)
      have hprevd :
          (finalState nodes edges source destination tf maxCost).previous destination
            = none := by
        cases hp : (finalState nodes edges source destination tf maxCost).previous
            destination with
        | none => rfl
        | some p =>
          obtain ⟨vis, _, _, _, hprev⟩ := inv.exVis
          exact absurd (hprev destination p hp).2.2.1 hdu0
      have hwalk :
          walkPrev (finalState nodes edges source destination tf maxCost).previous
            (nodes.length + 1) destination [] = some [] := by
        rw [walkPrev, hprevd]
      rw [hwalk]
      have hcost :
          (finalState nodes edges source destination tf maxCost).costs destination =
            JsNum.undefined := by
        rw [inv.frozen destination hdu0, if_neg hds]
      rw [hcost, if_neg hd]
    · have hs' : source ∉ mkSet (nodes.map Node.id) := fun hc => hs (mem_mkSet.mp hc)
      have hloop : finalState nodes edges source destination tf maxCost =
          DState.mk (initCosts (nodes.map Node.id) source) (fun _ => none)
            (mkSet (nodes.map Node.id)) := by
        unfold finalState
        apply loop_break_first
        left
        rw [init_scan_none hs']
      rw [hloop]
      show (match walkPrev (fun _ => none : String → Option Step) (nodes.length + 1)
            destination [] with
        | none => (Except.error DijkstraErr.fuelOut : Except DijkstraErr RouteResult)
        | some path =>
          Except.ok (RouteResult.mk path
            (initCosts (nodes.map Node.id) source destination))) =
        Except.ok (RouteResult.mk []
          (if destination ∈ nodes.map Node.id then JsNum.inf else JsNum.undefined))
      have hwalk : walkPrev (fun _ => none : String → Option Step) (nodes.length + 1)
          destination [] = some [] := by
        rw [walkPrev]
      rw [hwalk]
      have hcost : initCosts (nodes.map Node.id) source destination =
          if destination ∈ nodes.map Node.id then JsNum.inf else JsNum.undefined := by
        rw [initCosts]
        rw [if_neg hds]
        by_cases hd : destination ∈ nodes.map Node.id
        · have : (nodes.map Node.id).contains destination = true := by simpa using hd
          rw [this, if_pos hd]
          simp
        · have : (nodes.map Node.id).contains destination = false := by simpa using hd
          rw [this, if_neg hd]
          simp
      rw [hcost]
  · intro q
    by_cases hd : destination ∈ nodes.map Node.id
    · rw [if_pos hd]
      simp
    · rw [if_neg hd]
      simp

/-- Witness for C6's amended theorem: the absent-source query Z→F on the
example graph. -/
theorem dijkstra_absent_endpoint_no_path_witness :
    dijkstra exampleNodes exampleEdges "Z" "F" (fun _ => true) 10000 =
      .ok ⟨[], if "F" ∈ exampleNodes.map Node.id then JsNum.inf else JsNum.undefined⟩ ∧
    ∀ q : ℤ,
      (if "F" ∈ exampleNodes.map Node.id then JsNum.inf else JsNum.undefined) ≠
        JsNum.num q :=
  dijkstra_absent_endpoint_no_path exampleNodes exampleEdges "Z" "F" (fun _ => true)
    10000 (by decide) (by decide) (Or.inl (by decide))

/-- C7 counterexample: with `maxCost` = 400 the edges A–B (cost 550) and
C–D (cost 420), which the claim lists as admissible, are excluded by the
max-cost clause. -/
theorem maxCost400_excludes_claimed_edges :
    admissible (fun _ => true) 400 eAB = false ∧
    admissible (fun _ => true) 400 eCD = false :=
  ⟨by rfl, by rfl⟩

/-- C7 amended: with `maxCost` = 400 and the terrain filter disabled, the
only admissible edge of the example graph is C–E (cost 320); A and F are
disconnected in the filtered graph, and the query A→F returns the
unreachable result (empty path, `Infinity` cost). -/
theorem dijkstra_example_maxCost400_unreachable :
    (∀ e ∈ exampleEdges, admissible (fun _ => true) 400 e = decide (e = eCE)) ∧
    dijkstra exampleNodes exampleEdges "A" "F" (fun _ => true) 400 =
      .ok ⟨[], .inf⟩ := by
  constructor
  · decide
  · rfl

/-- Witness for C7's amended theorem, instantiated at the edge A–B. -/
theorem dijkstra_example_maxCost400_unreachable_witness :
    admissible (fun _ => true) 400 eAB = decide (eAB = eCE) ∧
    dijkstra exampleNodes exampleEdges "A" "F" (fun _ => true) 400 =
      .ok ⟨[], .inf⟩ :=
  ⟨dijkstra_example_maxCost400_unreachable.1 eAB (by decide),
    dijkstra_example_maxCost400_unreachable.2⟩

theorem any_congr_fn {α : Type} (p q : α → Bool) :
    ∀ l : List α, (∀ x ∈ l, p x = q x) → l.any p = l.any q
  | [], _ => rfl
  | x :: xs, h => by
    rw [List.any_cons, List.any_cons, h x (List.mem_cons_self _ _),
      any_congr_fn p q xs (fun y hy => h y (List.mem_cons_of_mem _ hy))]

theorem buildGraph_congr (tf1 tf2 : Edge → Bool) (mc1 mc2 : ℤ) (edges : List Edge)
    (h : ∀ e ∈ edges, admissible tf1 mc1 e = admissible tf2 mc2 e) :
    buildGraph tf1 mc1 edges = buildGraph tf2 mc2 edges := by
  unfold buildGraph
  apply foldl_congr_steps
  intro acc e he
  rw [h e he]

/-- Two filters admitting exactly the same edges of the input produce the
same run. -/
theorem dijkstra_congr_admissible (nodes : List Node) (edges : List Edge)
    (source destination : String) (tf1 tf2 : Edge → Bool) (mc1 mc2 : ℤ)
    (h : ∀ e ∈ edges, admissible tf1 mc1 e = admissible tf2 mc2 e) :
    dijkstra nodes edges source destination tf1 mc1 =
      dijkstra nodes edges source destination tf2 mc2 := by
  rw [dijkstra_eq, dijkstra_eq]
  have hbad : badEdgeCheck nodes edges tf1 mc1 = badEdgeCheck nodes edges tf2 mc2 := by
    unfold badEdgeCheck
    exact any_congr_fn _ _ edges (fun e he => by rw [h e he])
  have hfs : finalState nodes edges source destination tf1 mc1 =
      finalState nodes edges source destination tf2 mc2 := by
    unfold finalState
    rw [buildGraph_congr tf1 tf2 mc1 mc2 edges h]
  rw [hbad, hfs]

/-- C1: on the six-node example graph, with the terrain filter disabled
and any `maxCost` of at least 750, the query A→F returns the path
A→C→E→F with total cost 1595. -/
theorem dijkstra_example_A_F_no_filters (maxTerrain maxCost : ℤ)
    (h : 750 ≤ maxCost) :
    dijkstra exampleNodes exampleEdges "A" "F" (terrainFilter false maxTerrain)
      maxCost = .ok ⟨[eAC, eCE, eEF], .num 1595⟩ := by
  have hside : ∀ e ∈ exampleEdges,
      admissible (terrainFilter false maxTerrain) maxCost e =
        admissible (fun _ => true) 750 e := by
    intro e he
    have hcost : calculateEdgeCost e ≤ 750 := by
      fin_cases he <;> decide
    have h1 : terrainFilter false maxTerrain e = true := by simp [terrainFilter]
    rw [admissible, admissible, h1]
    show (true && decide (calculateEdgeCost e ≤ maxCost)) =
      (true && decide (calculateEdgeCost e ≤ 750))
    rw [decide_eq_true (le_trans hcost h), decide_eq_true hcost]
  rw [dijkstra_congr_admissible exampleNodes exampleEdges "A" "F"
    (terrainFilter false maxTerrain) (fun _ => true) maxCost 750 hside]
  rfl

/-- Witness for C1 at the App's default `maxCost` of 10000. -/
theorem dijkstra_example_A_F_no_filters_witness :
    dijkstra exampleNodes exampleEdges "A" "F" (terrainFilter false 3) 10000 =
      .ok ⟨[eAC, eCE, eEF], .num 1595⟩ :=
  dijkstra_example_A_F_no_filters 3 10000 (by decide)

theorem badEdgeCheck_filter_selfloops (nodes : List Node) (edges : List Edge)
    (tf : Edge → Bool) (mc : ℤ)
    (hself : ∀ e ∈ edges, e.start = e.«end» → e.start ∈ nodes.map Node.id) :
    badEdgeCheck nodes edges tf mc =
      badEdgeCheck nodes (edges.filter (fun e => !(e.start == e.«end»))) tf mc := by
  unfold badEdgeCheck
  apply any_filter_of_dropped_false
  intro e he hpe
  have heq : e.start = e.«end» := by simpa using hpe
  have hc : (nodes.map Node.id).contains e.start = true := by
    simpa using hself e he heq
  rw [← heq, hc]
  simp

theorem addEdge_eraseSelf {gacc gacc' : Graph} {e : Edge}
    (hrel : ∀ k, gacc' k = (gacc k).filter (fun a => !(a.node == k)))
    (hne : e.start ≠ e.«end») :
    ∀ k, addEdge gacc' e k = (addEdge gacc e k).filter (fun a => !(a.node == k)) := by
  intro k
  simp only [addEdge]
  by_cases h2 : k = e.«end»
  · rw [if_pos h2, if_pos h2]
    by_cases h1 : k = e.start
    · exact absurd (h1.symm.trans h2) hne
    · rw [if_neg h1, if_neg h1, List.filter_append]
      have hb : (e.start == k) = false := beq_eq_false_iff_ne.mpr (fun h => h1 h.symm)
      rw [hrel k]
      simp [hb]
  · rw [if_neg h2, if_neg h2]
    by_cases h1 : k = e.start
    · rw [if_pos h1, if_pos h1, List.filter_append]
      have hb : (e.«end» == k) = false := beq_eq_false_iff_ne.mpr (fun h => h2 h.symm)
      rw [hrel k]
      simp [hb]
    · rw [if_neg h1, if_neg h1]
      exact hrel k

theorem addEdge_selfloop_eraseSelf {gacc gacc' : Graph} {e : Edge}
    (hrel : ∀ k, gacc' k = (gacc k).filter (fun a => !(a.node == k)))
    (heq : e.start = e.«end») :
    ∀ k, gacc' k = (addEdge gacc e k).filter (fun a => !(a.node == k)) := by
  intro k
  simp only [addEdge]
  by_cases h2 : k = e.«end»
  · rw [if_pos h2]
    have h1 : k = e.start := h2.trans heq.symm
    rw [if_pos h1, List.filter_append, List.filter_append]
    have hb1 : (e.«end» == k) = true := by simp [h2.symm]
    have hb2 : (e.start == k) = true := by simp [h1.symm]
    rw [hrel k]
    simp [hb1, hb2]
  · rw [if_neg h2]
    have h1 : k ≠ e.start := fun h => h2 (h.trans heq)
    rw [if_neg h1]
    exact hrel k

theorem buildFold_selfloops (tf : Edge → Bool) (mc : ℤ) :
    ∀ (edges : List Edge) (gacc gacc' : Graph),
      (∀ k, gacc' k = (gacc k).filter (fun a => !(a.node == k))) →
      ∀ k, ((edges.filter (fun e => !(e.start == e.«end»))).foldl
          (fun g e => if admissible tf mc e then addEdge g e else g) gacc') k =
        ((edges.foldl (fun g e => if admissible tf mc e then addEdge g e else g)
          gacc) k).filter (fun a => !(a.node == k))
  | [], _, _, hrel, k => hrel k
  | e :: es, gacc, gacc', hrel, k => by
    by_cases hs : (!(e.start == e.«end»)) = true
    · rw [List.filter_cons, if_pos hs, List.foldl_cons, List.foldl_cons]
      have hne : e.start ≠ e.«end» := by simpa using hs
      by_cases hadm : admissible tf mc e = true
      · rw [if_pos hadm, if_pos hadm]
        exact buildFold_selfloops tf mc es (addEdge gacc e) (addEdge gacc' e)
          (addEdge_eraseSelf hrel hne) k
      · rw [if_neg hadm, if_neg hadm]
        exact buildFold_selfloops tf mc es gacc gacc' hrel k
    · rw [List.filter_cons, if_neg hs, List.foldl_cons]
      have heq : e.start = e.«end» := by simpa using hs
      by_cases hadm : admissible tf mc e = true
      · rw [if_pos hadm]
        exact buildFold_selfloops tf mc es (addEdge gacc e) gacc'
          (addEdge_selfloop_eraseSelf hrel heq) k
      · rw [if_neg hadm]
        exact buildFold_selfloops tf mc es gacc gacc' hrel k

theorem relaxAll_eraseSelf {g g' : Graph}
    (hrel : ∀ k, g' k = (g k).filter (fun a => !(a.node == k)))
    (current : String) (st : DState) (hcur : current ∉ st.unvisited) :
    relaxAll g' current st = relaxAll g current st := by
  unfold relaxAll
  rw [hrel current]
  refine ((foldl_filter_eq_of_inv (relaxStep current) (fun a => !(a.node == current))
    (fun st' => st'.unvisited = st.unvisited) ?_ ?_ (g current) st rfl)).symm
  · intro b nb hb
    unfold relaxStep
    by_cases hc1 : b.unvisited.contains nb.node = true
    · rw [if_pos hc1]
      by_cases hc2 : jsLt (jsAdd (b.costs current) nb.cost) (b.costs nb.node) = true
      · rw [if_pos hc2]
        exact hb
      · rw [if_neg hc2]
        exact hb
    · rw [if_neg hc1]
      exact hb
  · intro b nb hb hpx
    have hnode : nb.node = current := by simpa using hpx
    unfold relaxStep
    rw [if_neg]
    rw [hnode, hb]
    simpa using hcur

theorem loopFuel_eraseSelf {g g' : Graph}
    (hrel : ∀ k, g' k = (g k).filter (fun a => !(a.node == k))) (dest : String) :
    ∀ (fuel : ℕ) (s : DState), s.unvisited.Nodup →
      loopFuel g' dest fuel s = loopFuel g dest fuel s
  | 0, _, _ => rfl
  | fuel + 1, s, hnd => by
    rw [loopFuel, loopFuel]
    by_cases he : s.unvisited.isEmpty = true
    · rw [if_pos he, if_pos he]
    · rw [if_neg he, if_neg he]
      cases hsc : (scanMin s.costs s.unvisited).1 with
      | none => rfl
      | some current =>
        show (if current = dest then s
            else loopFuel g' dest fuel (relaxAll g' current
              { s with unvisited := s.unvisited.erase current })) =
          (if current = dest then s
            else loopFuel g dest fuel (relaxAll g current
              { s with unvisited := s.unvisited.erase current }))
        by_cases hd : current = dest
        · rw [if_pos hd, if_pos hd]
        · rw [if_neg hd, if_neg hd]
          have hcur : current ∉
              ({ s with unvisited := s.unvisited.erase current } : DState).unvisited :=
            fun hc => (hnd.mem_erase_iff.mp hc).1 rfl
          rw [relaxAll_eraseSelf hrel current _ hcur]
          refine loopFuel_eraseSelf hrel dest fuel _ ?_
          rw [relaxAll_unvisited]
          exact hnd.erase current

/-- Removing the self-loop edges from the input does not change the run:
self-loops are entered into the adjacency structure but are skipped by
the relaxation step (the settled node is no longer unvisited). -/
theorem dijkstra_filter_selfloops (nodes : List Node) (edges : List Edge)
    (source destination : String) (tf : Edge → Bool) (mc : ℤ)
    (hself : ∀ e ∈ edges, e.start = e.«end» → e.start ∈ nodes.map Node.id) :
    dijkstra nodes edges source destination tf mc =
      dijkstra nodes (edges.filter (fun e => !(e.start == e.«end»)))
        source destination tf mc := by
  rw [dijkstra_eq, dijkstra_eq,
    ← badEdgeCheck_filter_selfloops nodes edges tf mc hself]
  have hrel : ∀ k,
      buildGraph tf mc (edges.filter (fun e => !(e.start == e.«end»))) k =
        (buildGraph tf mc edges k).filter (fun a => !(a.node == k)) := by
    intro k
    unfold buildGraph
    exact buildFold_selfloops tf mc edges (fun _ => []) (fun _ => [])
      (fun _ => rfl) k
  have hfs : finalState nodes (edges.filter (fun e => !(e.start == e.«end»)))
      source destination tf mc = finalState nodes edges source destination tf mc := by
    unfold finalState
    exact loopFuel_eraseSelf hrel destination _ _ (mkSet_nodup _)
  rw [hfs]

/-- C8 counterexample: a self-loop edge passing the filter IS entered
into the filtered adjacency structure — twice (one push per endpoint) —
contradicting the claim that adjacency construction ignores it. -/
theorem selfloop_entered_in_adjacency :
    buildGraph (fun _ => true) 10000 [⟨"A", "A", 1, 1, 1, 1⟩] "A" =
      [⟨"A", 2, ⟨"A", "A", 1, 1, 1, 1⟩⟩, ⟨"A", 2, ⟨"A", "A", 1, 1, 1, 1⟩⟩] ∧
    buildGraph (fun _ => true) 10000 [⟨"A", "A", 1, 1, 1, 1⟩] "A" ≠ [] :=
  ⟨by rfl, by decide⟩

/-- C8 amended: self-loop edges are entered into the adjacency structure,
but the relaxation step always skips them (the settled node is removed
from the unvisited set before its neighbors are relaxed), so they never
appear in a returned path, never alter any returned cost (deleting them
yields the identical run), and cannot cause infinite relaxation. -/
theorem dijkstra_selfloops_harmless (nodes : List Node) (edges : List Edge)
    (source destination : String) (tf : Edge → Bool) (mc : ℤ)
    (hself : ∀ e ∈ edges, e.start = e.«end» → e.start ∈ nodes.map Node.id) :
    dijkstra nodes edges source destination tf mc =
      dijkstra nodes (edges.filter (fun e => !(e.start == e.«end»)))
        source destination tf mc ∧
    ∀ r, dijkstra nodes edges source destination tf mc = .ok r →
      ∀ e ∈ r.path, e.start ≠ e.«end» := by
  refine ⟨dijkstra_filter_selfloops nodes edges source destination tf mc hself, ?_⟩
  intro r hok e he
  obtain ⟨_, hwalk, _⟩ := dijkstra_ok_inversion hok
  obtain ⟨vis, _, _, _, hprev⟩ :=
    (finalState_inv nodes edges source destination tf mc).exVis
  have hPP : ∀ v p,
      (finalState nodes edges source destination tf mc).previous v = some p →
      p.edge.start ≠ p.edge.«end» := by
    intro v p hp
    obtain ⟨_, h2, _, _, _, _, hends⟩ := hprev v p hp
    have hfv : p.«from» ≠ v := fun hc => by
      rw [hc] at h2
      exact lt_irrefl _ h2
    rcases hends with ⟨ha, hb⟩ | ⟨ha, hb⟩
    · rw [ha, hb]
      exact hfv
    · rw [ha, hb]
      exact fun hc => hfv hc.symm
  rcases walk_edges (fun e => e.start ≠ e.«end») hPP (nodes.length + 1) destination
      [] r.path hwalk e he with h | h
  · exact h
  · exact absurd h (List.not_mem_nil e)

/-- Witness for C8's amended theorem: a graph holding the edge A–B plus a
self-loop at A. -/
theorem dijkstra_selfloops_harmless_witness :
    dijkstra [nodeA, nodeB] [eAB, ⟨"A", "A", 1, 1, 1, 1⟩] "A" "B"
        (fun _ => true) 10000 =
      dijkstra [nodeA, nodeB]
        ([eAB, ⟨"A", "A", 1, 1, 1, 1⟩].filter (fun e => !(e.start == e.«end»)))
        "A" "B" (fun _ => true) 10000 ∧
    ∀ r, dijkstra [nodeA, nodeB] [eAB, ⟨"A", "A", 1, 1, 1, 1⟩] "A" "B"
        (fun _ => true) 10000 = .ok r →
      ∀ e ∈ r.path, e.start ≠ e.«end» :=
  dijkstra_selfloops_harmless [nodeA, nodeB] [eAB, ⟨"A", "A", 1, 1, 1, 1⟩] "A" "B"
    (fun _ => true) 10000 (by decide)
